import Mathlib

/-!
Shallow embedding of the question-extraction core of
`thailand-driving-exam-questions` (src/src/main.rs): markup repair
(`fix_img_tags`), text normalization (`normalize_string`,
`normalize_question_title`, `normalize_answer_text`), the question
extractor (`parse_questions`), and `extract_image_name`.

Strings are modelled as `List Char` (`Str`), matching Rust `&str`
contents character for character.
-/

namespace ThaiExam

abbrev Str := List Char

/-! ## Node model (minidom `Element` / `Node` as used by the program) -/

mutual
/-- Markup tree node: either an element (tag name, attribute list with
unique keys, ordered child nodes) or a raw text node. -/
inductive Node where
  | element (name : Str) (attrs : List (Str × Str)) (nodes : NodeList)
  | text (s : Str)

/-- Ordered sequence of child nodes. -/
inductive NodeList where
  | nil
  | cons (n : Node) (ns : NodeList)
end

/-- Build a `NodeList` from a `List Node` (for writing documents). -/
def nl : List Node → NodeList
  | [] => .nil
  | n :: ns => .cons n (nl ns)

/-- View a `NodeList` as a `List Node`. -/
def NodeList.toList : NodeList → List Node
  | .nil => []
  | .cons n ns => n :: ns.toList

/-- Tag name of a node (`Element::name`); text nodes have none. -/
def Node.tagName : Node → Str
  | .element n _ _ => n
  | .text _ => []

/-- Attribute lookup (`Element::attr`): first binding of the key. -/
def Node.attr : Node → Str → Option Str
  | .element _ attrs _, key => attrs.lookup key
  | .text _, _ => none

/-- All child nodes of an element (`Element::nodes`), as a list. -/
def Node.nodesL : Node → List Node
  | .element _ _ ns => ns.toList
  | .text _ => []

def Node.isElement : Node → Bool
  | .element _ _ _ => true
  | .text _ => false

/-- Child elements only (`Element::children`). -/
def Node.childrenEls (n : Node) : List Node :=
  n.nodesL.filter Node.isElement

/-- First child element with the given tag (`Element::get_child` with
`NSChoice::Any`). -/
def Node.getChild (n : Node) (tag : Str) : Option Node :=
  n.childrenEls.find? (fun c => c.tagName == tag)

/-- Modelled from the spec: `Element::texts` of the external minidom
parser is not part of this repository sources; per spec section 3 it is
"a lazy traversal yielding all descendant text content concatenated".
`NodeList.textsL ns` lists the text content of every descendant text
node of the nodes in `ns`, in document order. -/
def NodeList.textsL : NodeList → List Str
  | .nil => []
  | .cons (.text s) ns => s :: ns.textsL
  | .cons (.element _ _ cs) ns => cs.textsL ++ ns.textsL

/-- Text contents reachable from one node: for an element, its descendant
text nodes (`el.texts()`); for a text node, itself. -/
def Node.texts : Node → List Str
  | .element _ _ cs => cs.textsL
  | .text s => [s]

/-! ## Text normalization (`normalize_string` and friends) -/

/-- Rust `char::is_whitespace` (the Unicode White_Space property), used by
`str::trim` and `str::split_whitespace`. -/
def rustWs (c : Char) : Bool :=
  c == '\u0020' || c == '\u0009' || c == '\u000A' || c == '\u000B' ||
  c == '\u000C' || c == '\u000D' || c == '\u0085' || c == '\u00A0' ||
  c == '\u1680' || c == '\u2000' || c == '\u2001' || c == '\u2002' ||
  c == '\u2003' || c == '\u2004' || c == '\u2005' || c == '\u2006' ||
  c == '\u2007' || c == '\u2008' || c == '\u2009' || c == '\u200A' ||
  c == '\u2028' || c == '\u2029' || c == '\u202F' || c == '\u205F' ||
  c == '\u3000'

/-- Rust `str::trim`: drop leading and trailing whitespace. -/
def trimStr (l : Str) : Str :=
  ((l.dropWhile rustWs).reverse.dropWhile rustWs).reverse

/-- Accumulator worker for `splitWh`; `acc` holds the current word
reversed. -/
def splitWhAux : Str → Str → List Str
  | acc, [] => if acc.isEmpty then [] else [acc.reverse]
  | acc, c :: rest =>
    if rustWs c then
      if acc.isEmpty then splitWhAux [] rest
      else acc.reverse :: splitWhAux [] rest
    else splitWhAux (c :: acc) rest

/-- Rust `str::split_whitespace`: maximal runs of non-whitespace
characters, in order, empty runs discarded. -/
def splitWh (l : Str) : List Str := splitWhAux [] l

/-- Helper for `joinSp`: prepend a space before each further word. -/
def prependSp : List Str → Str
  | [] => []
  | w :: ws => ' ' :: (w ++ prependSp ws)

/-- itertools `join(" ")`: words separated by single spaces. -/
def joinSp : List Str → Str
  | [] => []
  | w :: ws => w ++ prependSp ws

/-- `normalize_string`: replace `'\n'` by a space, split on whitespace,
rejoin with single spaces, trim. -/
def normalizeString (s : Str) : Str :=
  trimStr (joinSp (splitWh (s.map (fun c => if c == '\n' then ' ' else c))))

/-- Leading-run class of the title regex `^[\d.]+`: decimal digits or a
literal dot (`\d` modelled as ASCII digits, the only digits occurring in
the documents). -/
def isDigitDot (c : Char) : Bool := c.isDigit || c == '.'

/-- `normalize_question_title`: strip the leading `[\d.]+` run from the
trimmed input (regex `replace` of the anchored first match by the empty
string), then `normalize_string`. -/
def normalizeQuestionTitle (s : Str) : Str :=
  normalizeString ((trimStr s).dropWhile isDigitDot)

/-- The anchored regex `^[[:alpha:]]\.` replaced by the empty string: drop
one ASCII letter followed by a literal dot from the front, if present. -/
def stripAnswerHead : Str → Str
  | c :: '.' :: rest => if c.isAlpha then rest else c :: '.' :: rest
  | l => l

/-- `normalize_answer_text`: strip a leading `letter.` pair from the
trimmed input, then `normalize_string`. -/
def normalizeAnswerText (s : Str) : Str :=
  normalizeString (stripAnswerHead (trimStr s))

/-! ## Output data model -/

/-- One answer choice: normalized text plus the emphasized-markup flag. -/
structure AnswerChoice where
  text : Str
  is_answer : Bool
deriving Repr, DecidableEq

/-- One extracted question record. -/
structure Question where
  title : Str
  img_src : Option Str
  answer_choices : List AnswerChoice
deriving Repr, DecidableEq

/-! ## Question extractor (`parse_questions`) -/

/-- The fixed question-marker class (`QUESTION_CLASS`). -/
def questionMarker : Str := "has-luminous-vivid-orange-color has-text-color".toList

/-- The fixed image-container class (`IMAGE_CLASS`). -/
def imageMarker : Str := "wp-block-image".toList

/-- Question-marker test: `next.name() == "p" && next.attr("class") ==
Some(QUESTION_CLASS)`. -/
def isQuestionEl (n : Node) : Bool :=
  n.tagName == "p".toList && n.attr "class".toList == some questionMarker

/-- `is_image_element`: a `div` whose class is exactly `IMAGE_CLASS`. -/
def isImageElement (n : Node) : Bool :=
  n.tagName == "div".toList && n.attr "class".toList == some imageMarker

def errNoAfterTitle : Str := "no html elements after question title".toList
def errNoFigure : Str := "image div does not have inner figure tag".toList
def errNoImg : Str := "figure tag does not have inner img tag".toList
def errNoSrc : Str := "img tag does not have src attr".toList
def errNoAnswerP : Str := "expected to have questions p tag".toList

/-- Iterator `find`: first node satisfying `p` together with the nodes
after it (the iterator is consumed up to and including the match). -/
def findRest (p : Node → Bool) : List Node → Option (Node × List Node)
  | [] => none
  | x :: xs => if p x then some (x, xs) else findRest p xs

/-- Title string built from the marker's child nodes: one string per
child (element child: its descendant texts joined by spaces; text child:
its raw content), the per-child strings joined by single spaces. -/
def titleOfNodes (ns : List Node) : Str :=
  joinSp (ns.map fun n =>
    match n with
    | .element _ _ cs => joinSp cs.textsL
    | .text s => s)

/-- Answer-choice extraction from the answer paragraph's child nodes:
`strong` elements become marked choices from their joined texts, text
nodes become unmarked choices from their raw content, other elements are
skipped, and choices whose normalized text is empty are dropped. -/
def answerChoicesOf (p : Node) : List AnswerChoice :=
  (p.nodesL.filterMap fun n =>
    match n with
    | .element nm _ cs =>
      if nm == "strong".toList then
        some ⟨normalizeAnswerText (joinSp (NodeList.textsL cs)), true⟩
      else none
    | .text t => some ⟨normalizeAnswerText t, false⟩).filter
    fun choice => !choice.text.isEmpty

/-- Image branch of the extractor (the `?`-chain of the source): the
`figure` child of the image container, its `img` child, that child's
`src` attribute, then the first subsequent `p` element as the
answer-choice source. Returns the source reference, the answer
paragraph, and the cursor after it. -/
def imageBranch (body : Node) (rest2 : List Node) :
    Except Str (Str × Node × List Node) :=
  match body.getChild "figure".toList with
  | none => .error errNoFigure
  | some fig =>
    match fig.getChild "img".toList with
    | none => .error errNoImg
    | some img =>
      match img.attr "src".toList with
      | none => .error errNoSrc
      | some src =>
        match findRest (fun e => e.tagName == "p".toList) rest2 with
        | none => .error errNoAnswerP
        | some (ansP, rest3) => .ok (src, ansP, rest3)

/-- Fuel-indexed worker for `parse_questions`: walks the top-level
element cursor. `fuel` only bounds the recursion; any `fuel ≥` the list
length gives the loop of the source (see `parseGo_fuel`). -/
def parseGo : Nat → List Node → Except Str (List Question)
  | _, [] => .ok []
  | 0, _ :: _ => .ok []
  | fuel + 1, el :: rest =>
    if isQuestionEl el then
      let title := normalizeQuestionTitle (titleOfNodes el.nodesL)
      match findRest (fun e => isImageElement e || e.tagName == "p".toList) rest with
      | none => .error errNoAfterTitle
      | some (body, rest2) =>
        if isImageElement body then
          match imageBranch body rest2 with
          | .error e => .error e
          | .ok (src, ansP, rest3) =>
            (parseGo fuel rest3).map
              fun qs => ⟨title, some src, answerChoicesOf ansP⟩ :: qs
        else
          (parseGo fuel rest2).map
            fun qs => ⟨title, none, answerChoicesOf body⟩ :: qs
    else
      parseGo fuel rest

/-- Extraction over a top-level element list, with adequate fuel. -/
def parseL (l : List Node) : Except Str (List Question) :=
  parseGo l.length l

/-- `parse_questions`: walk the root's child elements. -/
def parseQuestions (root : Node) : Except Str (List Question) :=
  parseL root.childrenEls

/-! ## Markup repair (`fix_img_tags`) -/

/-- Does the string begin with the literal `<img`? -/
def startsImg : Str → Bool
  | c1 :: c2 :: c3 :: c4 :: _ => c1 == '<' && c2 == 'i' && c3 == 'm' && c4 == 'g'
  | _ => false

/-- Split at the first `'>'`: the characters before it and after it.
`none` when there is no `'>'` (the regex then has no match). -/
def spanGt : Str → Option (Str × Str)
  | [] => none
  | c :: rest =>
    if c == '>' then some ([], rest)
    else (spanGt rest).map fun p => (c :: p.1, p.2)

/-- Drop one trailing `'/'` if present (the optional `/?` of the
pattern, consumed so the replacement does not double it). -/
def dropTrailSlash (l : Str) : Str :=
  match l.reverse with
  | c :: r => if c == '/' then r.reverse else l
  | [] => l

/-- Fuel-indexed worker for `fix_img_tags`: scan for `<img`, rewrite the
tag body up to the first `'>'` to end in exactly one `/>`, resume after
it. Any `fuel ≥` the string length gives `replace_all` of the source. -/
def fixGo : Nat → Str → Str
  | _, [] => []
  | 0, l => l
  | fuel + 1, c :: rest =>
    if startsImg (c :: rest) then
      match spanGt (rest.drop 3) with
      | some (body, after) =>
        c :: rest.take 3 ++ dropTrailSlash body ++ '/' :: '>' :: fixGo fuel after
      | none => c :: rest
    else c :: fixGo fuel rest

/-- `fix_img_tags`: `Regex::new("<img(?P<body>(?s:.)*?)/?>")` replaced
everywhere by `<img$body/>`. -/
def fixImgTags (l : Str) : Str := fixGo l.length l

/-- Is there any occurrence of `<img` in the string? -/
def hasImg : Str → Bool
  | [] => false
  | c :: rest => startsImg (c :: rest) || hasImg rest

/-! ## Image name extraction (`extract_image_name`) -/

/-- Rust `str::split('/')`: pieces between slashes, in order; always at
least one piece. -/
def splitOnSlash : Str → List Str
  | [] => [[]]
  | c :: rest =>
    if c == '/' then [] :: splitOnSlash rest
    else
      match splitOnSlash rest with
      | [] => [[c]]
      | w :: ws => (c :: w) :: ws

/-- `extract_image_name`: `url.rsplit('/').next()` (first piece from the
end), with the error branch for an absent piece. -/
def extractImageName (url : Str) : Except Str Str :=
  match (splitOnSlash url).reverse.head? with
  | some n => .ok n
  | none => .error ("url does not have /: ".toList ++ url)

/-! ## Observables used by the claims -/

/-- No two consecutive space characters anywhere in the string. -/
def noTwoSpaces : Str → Bool
  | [] => true
  | [_] => true
  | c1 :: c2 :: rest => !(c1 == ' ' && c2 == ' ') && noTwoSpaces (c2 :: rest)

/-! ## Extractor lemmas -/

theorem findRest_length {p : Node → Bool} :
    ∀ {l : List Node} {x : Node} {r : List Node},
      findRest p l = some (x, r) → r.length < l.length := by
  intro l
  induction l with
  | nil => intro x r h; simp [findRest] at h
  | cons a as ih =>
    intro x r h
    simp only [findRest] at h
    by_cases hp : p a
    · simp [hp] at h
      simp [h.2.symm, List.length_cons, Nat.lt_succ_self]
    · simp [hp] at h
      exact Nat.lt_trans (ih h) (Nat.lt_succ_self _)

theorem imageBranch_ok_length {body : Node} {rest2 : List Node} {src : Str}
    {ansP : Node} {rest3 : List Node}
    (h : imageBranch body rest2 = .ok (src, ansP, rest3)) :
    rest3.length < rest2.length := by
  unfold imageBranch at h
  split at h
  · exact absurd h (by simp)
  · split at h
    · exact absurd h (by simp)
    · split at h
      · exact absurd h (by simp)
      · split at h
        · exact absurd h (by simp)
        · rename_i a r hf
          simp only [Except.ok.injEq, Prod.mk.injEq] at h
          obtain ⟨-, -, h3⟩ := h
          exact h3 ▸ findRest_length hf

theorem imageBranch_error_msgs {body : Node} {rest2 : List Node} {e : Str}
    (h : imageBranch body rest2 = .error e) :
    e = errNoFigure ∨ e = errNoImg ∨ e = errNoSrc ∨ e = errNoAnswerP := by
  unfold imageBranch at h
  split at h
  · exact Or.inl (Except.error.inj h).symm
  · split at h
    · exact Or.inr (Or.inl (Except.error.inj h).symm)
    · split at h
      · exact Or.inr (Or.inr (Or.inl (Except.error.inj h).symm))
      · split at h
        · exact Or.inr (Or.inr (Or.inr (Except.error.inj h).symm))
        · exact absurd h (by simp)

theorem parseGo_fuel :
    ∀ (f g : Nat) (l : List Node), l.length ≤ f → l.length ≤ g →
      parseGo f l = parseGo g l := by
  intro f
  induction f with
  | zero =>
    intro g l hf _
    have : l = [] := List.length_eq_zero.mp (Nat.le_zero.mp hf)
    subst this
    cases g <;> rfl
  | succ f ih =>
    intro g l hf hg
    cases l with
    | nil => cases g <;> rfl
    | cons el rest =>
      cases g with
      | zero => simp at hg
      | succ g' =>
        have hrf : rest.length ≤ f := by simpa using hf
        have hrg : rest.length ≤ g' := by simpa using hg
        simp only [parseGo]
        by_cases hq : isQuestionEl el
        · simp only [hq, if_true]
          cases hfind : findRest (fun e => isImageElement e || e.tagName == "p".toList) rest with
          | none => rfl
          | some pr =>
            obtain ⟨body, rest2⟩ := pr
            have h2 : rest2.length < rest.length := findRest_length hfind
            by_cases him : isImageElement body
            · simp only [him, if_true]
              cases hib : imageBranch body rest2 with
              | error e => rfl
              | ok tr =>
                obtain ⟨src, ansP, rest3⟩ := tr
                have h3 : rest3.length < rest2.length := imageBranch_ok_length hib
                simp only
                rw [ih g' rest3 (by omega) (by omega)]
            · simp only [him, Bool.false_eq_true, if_false]
              rw [ih g' rest2 (by omega) (by omega)]
        · simp only [hq, Bool.false_eq_true, if_false]
          exact ih g' rest hrf hrg

theorem parseL_cons_skip {el : Node} (rest : List Node)
    (h : isQuestionEl el = false) : parseL (el :: rest) = parseL rest := by
  simp [parseL, parseGo, h]

theorem parseL_skip :
    ∀ (pre l : List Node), (∀ e ∈ pre, isQuestionEl e = false) →
      parseL (pre ++ l) = parseL l := by
  intro pre
  induction pre with
  | nil => intro l _; rfl
  | cons e pre' ih =>
    intro l h
    have he : isQuestionEl e = false := h e (List.mem_cons_self e pre')
    rw [List.cons_append, parseL_cons_skip _ he]
    exact ih l fun x hx => h x (List.mem_cons_of_mem e hx)

theorem parseL_no_questions (l : List Node)
    (h : ∀ e ∈ l, isQuestionEl e = false) : parseL l = .ok [] := by
  have := parseL_skip l [] h
  rw [List.append_nil] at this
  exact this

theorem parseGo_error_msgs :
    ∀ (f : Nat) (l : List Node) (e : Str), parseGo f l = .error e →
      e = errNoAfterTitle ∨ e = errNoFigure ∨ e = errNoImg ∨
      e = errNoSrc ∨ e = errNoAnswerP := by
  intro f
  induction f with
  | zero =>
    intro l e h
    cases l <;> simp [parseGo] at h
  | succ f ih =>
    intro l e h
    cases l with
    | nil => simp [parseGo] at h
    | cons el rest =>
      simp only [parseGo] at h
      by_cases hq : isQuestionEl el
      · simp only [hq, if_true] at h
        cases hfind : findRest (fun e => isImageElement e || e.tagName == "p".toList) rest with
        | none =>
          rw [hfind] at h
          exact Or.inl (Except.error.inj h).symm
        | some pr =>
          obtain ⟨body, rest2⟩ := pr
          rw [hfind] at h
          by_cases him : isImageElement body
          · simp only [him, if_true] at h
            cases hib : imageBranch body rest2 with
            | error e' =>
              rw [hib] at h
              simp only at h
              have he := Except.error.inj h
              exact he ▸ Or.inr (imageBranch_error_msgs hib)
            | ok tr =>
              obtain ⟨src, ansP, rest3⟩ := tr
              rw [hib] at h
              simp only at h
              cases hrec : parseGo f rest3 with
              | ok qs => rw [hrec] at h; simp [Except.map] at h
              | error e' =>
                rw [hrec] at h
                simp only [Except.map] at h
                exact (Except.error.inj h) ▸ ih rest3 e' hrec
          · simp only [him, Bool.false_eq_true, if_false] at h
            cases hrec : parseGo f rest2 with
            | ok qs => rw [hrec] at h; simp [Except.map] at h
            | error e' =>
              rw [hrec] at h
              simp only [Except.map] at h
              exact (Except.error.inj h) ▸ ih rest2 e' hrec
      · simp only [hq, Bool.false_eq_true, if_false] at h
        exact ih rest e h

/-! ## Markup repair lemmas -/

theorem spanGt_some (b a : Str) (hb : '>' ∉ b) :
    spanGt (b ++ '>' :: a) = some (b, a) := by
  induction b with
  | nil => simp [spanGt]
  | cons c b' ih =>
    have hc : ¬(c = '>') := fun h => hb (h ▸ List.mem_cons_self c b')
    have hb' : '>' ∉ b' := fun h => hb (List.mem_cons_of_mem c h)
    simp [spanGt, beq_iff_eq, hc, ih hb']

theorem spanGt_none (l : Str) (h : '>' ∉ l) : spanGt l = none := by
  induction l with
  | nil => rfl
  | cons c rest ih =>
    have hc : ¬(c = '>') := fun hq => h (hq ▸ List.mem_cons_self c rest)
    have hr : '>' ∉ rest := fun hq => h (List.mem_cons_of_mem c hq)
    simp [spanGt, beq_iff_eq, hc, ih hr]

theorem spanGt_sound :
    ∀ {l b a : Str}, spanGt l = some (b, a) → l = b ++ '>' :: a ∧ '>' ∉ b := by
  intro l
  induction l with
  | nil => intro b a h; simp [spanGt] at h
  | cons c rest ih =>
    intro b a h
    by_cases hc : c = '>'
    · subst hc
      simp [spanGt] at h
      obtain ⟨hb, ha⟩ := h
      subst hb; subst ha
      exact ⟨rfl, List.not_mem_nil '>'⟩
    · simp only [spanGt, beq_iff_eq, hc, if_false] at h
      cases hs : spanGt rest with
      | none => rw [hs] at h; simp at h
      | some p =>
        obtain ⟨b', a'⟩ := p
        rw [hs] at h
        simp at h
        obtain ⟨hb, ha⟩ := h
        obtain ⟨hrest, hnb⟩ := ih hs
        subst hb; subst ha; subst hrest
        refine ⟨rfl, ?_⟩
        intro hmem
        rcases List.mem_cons.mp hmem with hq | hq
        · exact hc hq.symm
        · exact hnb hq

theorem spanGt_none_sound : ∀ {l : Str}, spanGt l = none → '>' ∉ l := by
  intro l
  induction l with
  | nil => intro _ h; exact List.not_mem_nil _ h
  | cons c rest ih =>
    intro h hmem
    by_cases hc : c = '>'
    · subst hc; simp [spanGt] at h
    · simp only [spanGt, beq_iff_eq, hc, if_false] at h
      cases hs : spanGt rest with
      | none =>
        rcases List.mem_cons.mp hmem with hq | hq
        · exact hc hq.symm
        · exact ih hs hq
      | some p => rw [hs] at h; simp at h

theorem fixGo_fuel :
    ∀ (f g : Nat) (l : Str), l.length ≤ f → l.length ≤ g → fixGo f l = fixGo g l := by
  intro f
  induction f with
  | zero =>
    intro g l hf _
    have : l = [] := List.length_eq_zero.mp (Nat.le_zero.mp hf)
    subst this
    cases g <;> rfl
  | succ f ih =>
    intro g l hf hg
    cases l with
    | nil => cases g <;> rfl
    | cons c rest =>
      cases g with
      | zero => simp at hg
      | succ g' =>
        have hrf : rest.length ≤ f := by simpa using hf
        have hrg : rest.length ≤ g' := by simpa using hg
        simp only [fixGo]
        by_cases hs : startsImg (c :: rest) = true
        · rw [if_pos hs, if_pos hs]
          cases hsp : spanGt (rest.drop 3) with
          | none => rfl
          | some p =>
            obtain ⟨body, after⟩ := p
            obtain ⟨hdec, -⟩ := spanGt_sound hsp
            have h5 : (rest.drop 3).length ≤ rest.length := by
              simp [List.length_drop]
            have h6 : (rest.drop 3).length = body.length + ('>' :: after).length := by
              rw [hdec]; exact List.length_append _ _
            have h7 : ('>' :: after).length = after.length + 1 := List.length_cons _ _
            simp only
            rw [ih g' after (by omega) (by omega)]
        · rw [if_neg hs, if_neg hs]
          rw [ih g' rest hrf hrg]

theorem fixImgTags_cons_noimg (c : Char) (rest : Str)
    (h : startsImg (c :: rest) = false) :
    fixImgTags (c :: rest) = c :: fixImgTags rest := by
  simp only [fixImgTags, List.length_cons, fixGo, h, Bool.false_eq_true, if_false]

theorem fixImgTags_img (rest body after : Str)
    (hsp : spanGt rest = some (body, after)) :
    fixImgTags ('<' :: 'i' :: 'm' :: 'g' :: rest) =
      '<' :: 'i' :: 'm' :: 'g' :: (dropTrailSlash body ++ '/' :: '>' :: fixImgTags after) := by
  obtain ⟨hdec, -⟩ := spanGt_sound hsp
  have h6 : rest.length = body.length + ('>' :: after).length := by
    rw [hdec]; exact List.length_append _ _
  have h7 : ('>' :: after).length = after.length + 1 := List.length_cons _ _
  simp only [fixImgTags, List.length_cons, fixGo]
  rw [if_pos (show startsImg ('<' :: 'i' :: 'm' :: 'g' :: rest) = true from rfl)]
  rw [show List.drop 3 ('i' :: 'm' :: 'g' :: rest) = rest from rfl, hsp]
  simp only
  rw [show List.take 3 ('i' :: 'm' :: 'g' :: rest) = ['i', 'm', 'g'] from rfl]
  rw [fixGo_fuel (rest.length + 1 + 1 + 1) after.length after (by omega) (le_refl _)]
  simp [fixImgTags]

theorem fixImgTags_img_none (rest : Str) (hsp : spanGt rest = none) :
    fixImgTags ('<' :: 'i' :: 'm' :: 'g' :: rest) = '<' :: 'i' :: 'm' :: 'g' :: rest := by
  have h4 : ('i' :: 'm' :: 'g' :: rest : Str).drop 3 = rest := rfl
  simp only [fixImgTags, List.length_cons, fixGo, startsImg, if_true]
  rw [h4, hsp]
  simp

theorem startsImg_append_lt (c : Char) (pre' l : Str)
    (h : startsImg (c :: pre') = false) :
    startsImg ((c :: pre') ++ '<' :: l) = false := by
  cases pre' with
  | nil =>
    cases l with
    | nil => rfl
    | cons x xs =>
      cases xs with
      | nil => rfl
      | cons y ys => simp [startsImg]
  | cons p1 t1 =>
    cases t1 with
    | nil =>
      cases l with
      | nil => rfl
      | cons x xs => simp [startsImg]
    | cons p2 t2 =>
      cases t2 with
      | nil => simp [startsImg]
      | cons p3 t3 => simpa [startsImg] using h

theorem startsImg_append_any (c : Char) (pre' z : Str)
    (h : startsImg (c :: pre') = true) :
    startsImg ((c :: pre') ++ z) = true := by
  cases pre' with
  | nil => simp [startsImg] at h
  | cons p1 t1 =>
    cases t1 with
    | nil => simp [startsImg] at h
    | cons p2 t2 =>
      cases t2 with
      | nil => simp [startsImg] at h
      | cons p3 t3 => simpa [startsImg] using h

theorem hasImg_cons_false {c : Char} {rest : Str} (h : hasImg (c :: rest) = false) :
    startsImg (c :: rest) = false ∧ hasImg rest = false := by
  have := h
  rw [hasImg] at this
  exact Bool.or_eq_false_iff.mp this

theorem fixImgTags_id_of_noimg : ∀ (l : Str), hasImg l = false → fixImgTags l = l := by
  intro l
  induction l with
  | nil => intro _; rfl
  | cons c rest ih =>
    intro h
    obtain ⟨h1, h2⟩ := hasImg_cons_false h
    rw [fixImgTags_cons_noimg c rest h1, ih h2]

theorem fixImgTags_decompose :
    ∀ (pre body post : Str), hasImg pre = false → '>' ∉ body →
      fixImgTags (pre ++ '<' :: 'i' :: 'm' :: 'g' :: (body ++ '>' :: post)) =
        pre ++ '<' :: 'i' :: 'm' :: 'g' ::
          (dropTrailSlash body ++ '/' :: '>' :: fixImgTags post) := by
  intro pre
  induction pre with
  | nil =>
    intro body post _ hb
    simpa using fixImgTags_img _ _ _ (spanGt_some body post hb)
  | cons c pre' ih =>
    intro body post hpre hb
    obtain ⟨h1, h2⟩ := hasImg_cons_false hpre
    have h3 : startsImg ((c :: pre') ++ '<' :: ('i' :: 'm' :: 'g' :: (body ++ '>' :: post))) = false :=
      startsImg_append_lt c pre' _ h1
    rw [List.cons_append] at h3 ⊢
    rw [fixImgTags_cons_noimg c _ h3, ih body post h2 hb]
    simp

theorem fixImgTags_noclose :
    ∀ (pre rest : Str), hasImg pre = false → '>' ∉ rest →
      fixImgTags (pre ++ '<' :: 'i' :: 'm' :: 'g' :: rest) =
        pre ++ '<' :: 'i' :: 'm' :: 'g' :: rest := by
  intro pre
  induction pre with
  | nil =>
    intro rest _ hr
    simpa using fixImgTags_img_none rest (spanGt_none rest hr)
  | cons c pre' ih =>
    intro rest hpre hr
    obtain ⟨h1, h2⟩ := hasImg_cons_false hpre
    have h3 : startsImg ((c :: pre') ++ '<' :: ('i' :: 'm' :: 'g' :: rest)) = false :=
      startsImg_append_lt c pre' _ h1
    rw [List.cons_append] at h3 ⊢
    rw [fixImgTags_cons_noimg c _ h3, ih rest h2 hr]

theorem hasImg_decomp :
    ∀ (l : Str), hasImg l = true →
      ∃ pre rest, l = pre ++ '<' :: 'i' :: 'm' :: 'g' :: rest ∧ hasImg pre = false := by
  intro l
  induction l with
  | nil => intro h; simp [hasImg] at h
  | cons c t ih =>
    intro h
    by_cases hs : startsImg (c :: t) = true
    · cases t with
      | nil => simp [startsImg] at hs
      | cons c2 t2 =>
        cases t2 with
        | nil => simp [startsImg] at hs
        | cons c3 t3 =>
          cases t3 with
          | nil => simp [startsImg] at hs
          | cons c4 t4 =>
            simp only [startsImg, Bool.and_eq_true, beq_iff_eq] at hs
            obtain ⟨⟨⟨hc, hc2⟩, hc3⟩, hc4⟩ := hs
            subst hc; subst hc2; subst hc3; subst hc4
            exact ⟨[], t4, rfl, rfl⟩
    · have hs' : startsImg (c :: t) = false := by simpa using hs
      have ht : hasImg t = true := by
        have := h
        rw [hasImg, hs', Bool.false_or] at this
        exact this
      obtain ⟨pre', rest, heq, hpre'⟩ := ih ht
      refine ⟨c :: pre', rest, by rw [heq, List.cons_append], ?_⟩
      have hsp : startsImg (c :: pre') = false := by
        by_cases hq : startsImg (c :: pre') = true
        · exfalso
          have := startsImg_append_any c pre' ('<' :: 'i' :: 'm' :: 'g' :: rest) hq
          rw [List.cons_append, ← heq] at this
          rw [this] at hs'
          exact Bool.true_eq_false.mp hs'
        · simpa using hq
      rw [hasImg, hsp, Bool.false_or]
      exact hpre'

theorem dropTrailSlash_append_slash (b : Str) :
    dropTrailSlash (b ++ ['/']) = b := by
  simp [dropTrailSlash, List.reverse_append]

theorem dropTrailSlash_mem {x : Char} {l : Str} (h : x ∈ dropTrailSlash l) : x ∈ l := by
  unfold dropTrailSlash at h
  cases hl : l.reverse with
  | nil => rw [hl] at h; exact h
  | cons c r =>
    rw [hl] at h
    simp only at h
    by_cases hc : c = '/'
    · rw [if_pos (by simp [hc] : (c == '/') = true)] at h
      have hxr : x ∈ r := List.mem_reverse.mp h
      have hxl : x ∈ l.reverse := by rw [hl]; exact List.mem_cons_of_mem _ hxr
      exact List.mem_reverse.mp hxl
    · rw [if_neg (by simp [hc] : ¬(c == '/') = true)] at h
      exact h

theorem fixImgTags_idem_aux :
    ∀ (n : Nat) (l : Str), l.length ≤ n → fixImgTags (fixImgTags l) = fixImgTags l := by
  intro n
  induction n with
  | zero =>
    intro l h
    have : l = [] := List.length_eq_zero.mp (Nat.le_zero.mp h)
    subst this; rfl
  | succ n ih =>
    intro l hl
    by_cases h : hasImg l = true
    · obtain ⟨pre, rest, heq, hpre⟩ := hasImg_decomp l h
      subst heq
      cases hsp : spanGt rest with
      | none =>
        have hng : '>' ∉ rest := spanGt_none_sound hsp
        rw [fixImgTags_noclose pre rest hpre hng, fixImgTags_noclose pre rest hpre hng]
      | some p =>
        obtain ⟨body, post⟩ := p
        obtain ⟨hresteq, hnb⟩ := spanGt_sound hsp
        subst hresteq
        rw [fixImgTags_decompose pre body post hpre hnb]
        have hassoc : pre ++ '<' :: 'i' :: 'm' :: 'g' ::
            (dropTrailSlash body ++ '/' :: '>' :: fixImgTags post) =
          pre ++ '<' :: 'i' :: 'm' :: 'g' ::
            ((dropTrailSlash body ++ ['/']) ++ '>' :: fixImgTags post) := by
          simp
        have hb' : '>' ∉ dropTrailSlash body ++ ['/'] := by
          intro hmem
          rcases List.mem_append.mp hmem with hq | hq
          · exact hnb (dropTrailSlash_mem hq)
          · simp at hq
        rw [hassoc, fixImgTags_decompose pre _ _ hpre hb', dropTrailSlash_append_slash]
        have hpost : post.length ≤ n := by
          have h1 : (pre ++ '<' :: 'i' :: 'm' :: 'g' :: (body ++ '>' :: post)).length =
              pre.length + 4 + (body.length + 1 + post.length) := by
            simp [List.length_append]; omega
          omega
        rw [ih post hpost]
        simp
    · have hfalse : hasImg l = false := by simpa using h
      rw [fixImgTags_id_of_noimg l hfalse, fixImgTags_id_of_noimg l hfalse]

/-! ## Normalization lemmas -/

theorem splitWhAux_sound :
    ∀ (s acc : Str), (∀ c ∈ acc, rustWs c = false) →
      ∀ w ∈ splitWhAux acc s, w ≠ [] ∧ ∀ c ∈ w, rustWs c = false := by
  intro s
  induction s with
  | nil =>
    intro acc hacc w hw
    cases acc with
    | nil => simp [splitWhAux] at hw
    | cons a t =>
      simp only [splitWhAux, List.isEmpty_cons, if_false] at hw
      simp only [Bool.false_eq_true, if_false, List.mem_singleton] at hw
      subst hw
      refine ⟨by simp, ?_⟩
      intro c hc
      exact hacc c (List.mem_reverse.mp hc)
  | cons c rest ih =>
    intro acc hacc w hw
    simp only [splitWhAux] at hw
    by_cases hws : rustWs c = true
    · rw [if_pos hws] at hw
      cases acc with
      | nil =>
        simp only [List.isEmpty_nil, if_true] at hw
        exact ih [] (by simp) w hw
      | cons a t =>
        simp only [List.isEmpty_cons, Bool.false_eq_true, if_false] at hw
        rcases List.mem_cons.mp hw with hq | hq
        · subst hq
          refine ⟨by simp, ?_⟩
          intro x hx
          exact hacc x (List.mem_reverse.mp hx)
        · exact ih [] (by simp) w hq
    · rw [if_neg hws] at hw
      refine ih (c :: acc) ?_ w hw
      intro x hx
      rcases List.mem_cons.mp hx with hq | hq
      · subst hq; simpa using hws
      · exact hacc x hq

theorem splitWh_sound (l : Str) :
    ∀ w ∈ splitWh l, w ≠ [] ∧ ∀ c ∈ w, rustWs c = false :=
  splitWhAux_sound l [] (by simp)

theorem prependSp_mem :
    ∀ (ws : List Str), (∀ w ∈ ws, ∀ c ∈ w, rustWs c = false) →
      ∀ x ∈ prependSp ws, x = ' ' ∨ rustWs x = false := by
  intro ws
  induction ws with
  | nil => intro _ x hx; simp [prependSp] at hx
  | cons w ws' ih =>
    intro h x hx
    simp only [prependSp] at hx
    rcases List.mem_cons.mp hx with hq | hq
    · exact Or.inl hq
    · rcases List.mem_append.mp hq with hq2 | hq2
      · exact Or.inr (h w (List.mem_cons_self w ws') x hq2)
      · exact ih (fun v hv c hc => h v (List.mem_cons_of_mem w hv) c hc) x hq2

theorem joinSp_mem
    (ws : List Str) (h : ∀ w ∈ ws, ∀ c ∈ w, rustWs c = false) :
    ∀ x ∈ joinSp ws, x = ' ' ∨ rustWs x = false := by
  intro x hx
  cases ws with
  | nil => simp [joinSp] at hx
  | cons w ws' =>
    simp only [joinSp] at hx
    rcases List.mem_append.mp hx with hq | hq
    · exact Or.inr (h w (List.mem_cons_self w ws') x hq)
    · exact prependSp_mem ws' (fun v hv c hc => h v (List.mem_cons_of_mem w hv) c hc) x hq

theorem noTwo_append_nospace :
    ∀ (w l : Str), (∀ c ∈ w, ¬(c = ' ')) → noTwoSpaces l = true →
      noTwoSpaces (w ++ l) = true := by
  intro w
  induction w with
  | nil => intro l _ hl; simpa using hl
  | cons a w' ih =>
    intro l hw hl
    have ha : ¬(a = ' ') := hw a (List.mem_cons_self a w')
    have hrec : noTwoSpaces (w' ++ l) = true :=
      ih l (fun c hc => hw c (List.mem_cons_of_mem a hc)) hl
    rw [List.cons_append]
    cases hwl : w' ++ l with
    | nil => rfl
    | cons b t =>
      rw [hwl] at hrec
      rw [noTwoSpaces]
      simp [hrec, beq_iff_eq, ha]

theorem prependSp_noTwo :
    ∀ (ws : List Str),
      (∀ w ∈ ws, w ≠ [] ∧ ∀ c ∈ w, rustWs c = false) →
      noTwoSpaces (prependSp ws) = true := by
  intro ws
  induction ws with
  | nil => intro _; rfl
  | cons w ws' ih =>
    intro h
    obtain ⟨hne, hchars⟩ := h w (List.mem_cons_self w ws')
    cases w with
    | nil => exact absurd rfl hne
    | cons a w'' =>
      have ha : ¬(a = ' ') := by
        intro hq
        have hx := hchars a (List.mem_cons_self a w'')
        rw [hq] at hx
        simp [rustWs] at hx
      have hrest : noTwoSpaces (prependSp ws') = true :=
        ih fun v hv => h v (List.mem_cons_of_mem _ hv)
      have happ : noTwoSpaces ((a :: w'') ++ prependSp ws') = true := by
        apply noTwo_append_nospace
        · intro c hc hq
          have hx := hchars c hc
          rw [hq] at hx
          simp [rustWs] at hx
        · exact hrest
      rw [List.cons_append] at happ
      simp only [prependSp, List.cons_append]
      have hstep : noTwoSpaces (' ' :: a :: (w'' ++ prependSp ws')) =
          (!(' ' == ' ' && a == ' ') && noTwoSpaces (a :: (w'' ++ prependSp ws'))) := rfl
      rw [hstep, happ]
      simp [beq_iff_eq, ha]

theorem joinSp_noTwo
    (ws : List Str) (h : ∀ w ∈ ws, w ≠ [] ∧ ∀ c ∈ w, rustWs c = false) :
    noTwoSpaces (joinSp ws) = true := by
  cases ws with
  | nil => rfl
  | cons w ws' =>
    simp only [joinSp]
    apply noTwo_append_nospace
    · intro c hc hq
      have := (h w (List.mem_cons_self w ws')).2 c hc
      rw [hq] at this
      simp [rustWs] at this
    · exact prependSp_noTwo ws' fun v hv => h v (List.mem_cons_of_mem w hv)

theorem getLast?_mem_of_eq {α : Type _} :
    ∀ {l : List α} {c : α}, l.getLast? = some c → c ∈ l := by
  intro l c h
  rw [← List.head?_reverse] at h
  cases hrev : l.reverse with
  | nil => rw [hrev] at h; simp at h
  | cons b r =>
    rw [hrev] at h
    simp only [List.head?_cons, Option.some.injEq] at h
    have hcb : c ∈ l.reverse := by rw [hrev, ← h]; exact List.mem_cons_self b r
    exact List.mem_reverse.mp hcb

theorem trimStr_eq_self {l : Str}
    (hh : ∀ c, l.head? = some c → rustWs c = false)
    (hl : ∀ c, l.getLast? = some c → rustWs c = false) :
    trimStr l = l := by
  cases l with
  | nil => rfl
  | cons a t =>
    have ha : rustWs a = false := hh a rfl
    unfold trimStr
    rw [List.dropWhile_cons, if_neg (by simp [ha])]
    cases hrev : (a :: t).reverse with
    | nil => exact absurd hrev (by simp)
    | cons b r =>
      have hb : rustWs b = false := by
        apply hl
        rw [← List.head?_reverse, hrev]
        rfl
      rw [List.dropWhile_cons, if_neg (by simp [hb]), ← hrev, List.reverse_reverse]

theorem joinSp_head
    (ws : List Str) (h : ∀ w ∈ ws, w ≠ [] ∧ ∀ c ∈ w, rustWs c = false) :
    ∀ c, (joinSp ws).head? = some c → rustWs c = false := by
  intro c hc
  cases ws with
  | nil => simp [joinSp] at hc
  | cons w ws' =>
    obtain ⟨hne, hchars⟩ := h w (List.mem_cons_self w ws')
    cases w with
    | nil => exact absurd rfl hne
    | cons a w'' =>
      simp only [joinSp, List.cons_append, List.head?_cons, Option.some.injEq] at hc
      subst hc
      exact hchars a (List.mem_cons_self a w'')

theorem getLast?_cons_ne_nil {α : Type _} {x : α} {l : List α} (h : l ≠ []) :
    (x :: l).getLast? = l.getLast? := by
  cases l with
  | nil => exact absurd rfl h
  | cons b t => exact List.getLast?_cons_cons

theorem joinSp_ne_nil {ws : List Str}
    (h : ∀ w ∈ ws, w ≠ [] ∧ ∀ c ∈ w, rustWs c = false) (hne : ws ≠ []) :
    joinSp ws ≠ [] := by
  cases ws with
  | nil => exact absurd rfl hne
  | cons w ws' =>
    obtain ⟨hwne, -⟩ := h w (List.mem_cons_self w ws')
    cases w with
    | nil => exact absurd rfl hwne
    | cons a w'' => simp [joinSp]

theorem joinSp_getLast :
    ∀ (ws : List Str), (∀ w ∈ ws, w ≠ [] ∧ ∀ c ∈ w, rustWs c = false) →
      ∀ c, (joinSp ws).getLast? = some c → rustWs c = false := by
  intro ws
  induction ws with
  | nil => intro _ c hc; simp [joinSp] at hc
  | cons w ws' ih =>
    intro h c hc
    cases ws' with
    | nil =>
      simp only [joinSp, prependSp, List.append_nil] at hc
      exact (h w (List.mem_cons_self w [])).2 c (getLast?_mem_of_eq hc)
    | cons w2 ws'' =>
      have hgood : ∀ v ∈ w2 :: ws'', v ≠ [] ∧ ∀ x ∈ v, rustWs x = false :=
        fun v hv => h v (List.mem_cons_of_mem w hv)
      have hjoin_ne : joinSp (w2 :: ws'') ≠ [] := joinSp_ne_nil hgood (by simp)
      have hpre : prependSp (w2 :: ws'') = ' ' :: joinSp (w2 :: ws'') := rfl
      simp only [joinSp] at hc
      rw [hpre, List.getLast?_append_cons, getLast?_cons_ne_nil hjoin_ne] at hc
      exact ih hgood c hc

theorem normalizeString_props (s : Str) :
    '\n' ∉ normalizeString s ∧ noTwoSpaces (normalizeString s) = true ∧
      trimStr (normalizeString s) = normalizeString s := by
  have hgood := splitWh_sound (s.map (fun c => if c == '\n' then ' ' else c))
  have htrim : trimStr (joinSp (splitWh (s.map (fun c => if c == '\n' then ' ' else c)))) =
      joinSp (splitWh (s.map (fun c => if c == '\n' then ' ' else c))) :=
    trimStr_eq_self (joinSp_head _ hgood) (joinSp_getLast _ hgood)
  have hns : normalizeString s =
      joinSp (splitWh (s.map (fun c => if c == '\n' then ' ' else c))) := by
    rw [normalizeString, htrim]
  refine ⟨?_, ?_, ?_⟩
  · intro hmem
    rw [hns] at hmem
    rcases joinSp_mem _ (fun w hw c hc => (hgood w hw).2 c hc) '\n' hmem with hq | hq
    · exact absurd hq (by decide)
    · simp [rustWs] at hq
  · rw [hns]
    exact joinSp_noTwo _ hgood
  · rw [hns]
    exact htrim

/-! ## Image name lemmas -/

theorem splitOnSlash_ne_nil : ∀ (l : Str), splitOnSlash l ≠ [] := by
  intro l
  induction l with
  | nil => simp [splitOnSlash]
  | cons c rest ih =>
    simp only [splitOnSlash]
    by_cases hc : (c == '/') = true
    · rw [if_pos hc]; simp
    · rw [if_neg hc]
      cases hs : splitOnSlash rest with
      | nil => simp
      | cons w ws => simp

theorem splitOnSlash_noslash :
    ∀ (l : Str), '/' ∉ l → splitOnSlash l = [l] := by
  intro l
  induction l with
  | nil => intro _; rfl
  | cons c rest ih =>
    intro h
    have hc : ¬(c = '/') := fun hq => h (hq ▸ List.mem_cons_self c rest)
    have hr : '/' ∉ rest := fun hq => h (List.mem_cons_of_mem c hq)
    simp only [splitOnSlash]
    rw [if_neg (by simp [beq_iff_eq, hc]), ih hr]

theorem splitOnSlash_len2 : ∀ (l : Str), '/' ∈ l → 2 ≤ (splitOnSlash l).length := by
  intro l
  induction l with
  | nil => intro h; simp at h
  | cons c rest ih =>
    intro h
    simp only [splitOnSlash]
    by_cases hc : c = '/'
    · rw [if_pos (by simp [beq_iff_eq, hc])]
      have := splitOnSlash_ne_nil rest
      have : 1 ≤ (splitOnSlash rest).length := by
        cases hs : splitOnSlash rest with
        | nil => exact absurd hs (splitOnSlash_ne_nil rest)
        | cons w ws => simp
      simp only [List.length_cons]
      omega
    · have hrest : '/' ∈ rest := by
        rcases List.mem_cons.mp h with hq | hq
        · exact absurd hq.symm hc
        · exact hq
      rw [if_neg (by simp [beq_iff_eq, hc])]
      cases hs : splitOnSlash rest with
      | nil => exact absurd hs (splitOnSlash_ne_nil rest)
      | cons w ws =>
        have := ih hrest
        rw [hs] at this
        simpa using this

theorem splitOnSlash_getLast :
    ∀ (a b : Str), '/' ∉ b → (splitOnSlash (a ++ '/' :: b)).getLast? = some b := by
  intro a
  induction a with
  | nil =>
    intro b hb
    simp only [List.nil_append, splitOnSlash]
    rw [if_pos (by simp), splitOnSlash_noslash b hb]
    rfl
  | cons c a' ih =>
    intro b hb
    rw [List.cons_append]
    simp only [splitOnSlash]
    by_cases hc : c = '/'
    · rw [if_pos (by simp [beq_iff_eq, hc])]
      rw [getLast?_cons_ne_nil (splitOnSlash_ne_nil _)]
      exact ih b hb
    · rw [if_neg (by simp [beq_iff_eq, hc])]
      cases hs : splitOnSlash (a' ++ '/' :: b) with
      | nil => exact absurd hs (splitOnSlash_ne_nil _)
      | cons w ws =>
        have hlen : 2 ≤ (splitOnSlash (a' ++ '/' :: b)).length :=
          splitOnSlash_len2 _ (by simp)
        rw [hs] at hlen
        have hws : ws ≠ [] := by
          cases ws with
          | nil => simp at hlen
          | cons u us => simp
        have h1 : ((c :: w) :: ws).getLast? = ws.getLast? := getLast?_cons_ne_nil hws
        have h2 : (w :: ws).getLast? = ws.getLast? := getLast?_cons_ne_nil hws
        rw [h1, ← h2, ← hs]
        exact ih b hb

/-! ## Further extractor helpers -/

theorem nl_toList : ∀ (l : List Node), (nl l).toList = l := by
  intro l
  induction l with
  | nil => rfl
  | cons n ns ih => simp [nl, NodeList.toList, ih]

theorem parseL_step_noimg (m ansP : Node) (rest : List Node)
    (hm : isQuestionEl m = true) (himg : isImageElement ansP = false)
    (hp : (ansP.tagName == "p".toList) = true) :
    parseL (m :: ansP :: rest) =
      (parseL rest).map fun qs =>
        ⟨normalizeQuestionTitle (titleOfNodes m.nodesL), none, answerChoicesOf ansP⟩ :: qs := by
  simp only [parseL, List.length_cons, parseGo, hm, if_true]
  rw [show findRest (fun e => isImageElement e || e.tagName == "p".toList) (ansP :: rest) =
      some (ansP, rest) from by
    simp only [findRest]
    have hcond : (isImageElement ansP || ansP.tagName == "p".toList) = true := by
      rw [himg, Bool.false_or]; exact hp
    rw [if_pos hcond]]
  simp only [himg, Bool.false_eq_true, if_false]
  rw [parseGo_fuel (rest.length + 1) rest.length rest (by omega) (le_refl _)]

/-! ## Claim theorems -/

/-- C3: extraction is all-or-nothing per document: for every input tree
the extractor returns either the full ordered question sequence or an
error, the error value is one of the five structural-expectation
messages of the source, and an error result carries zero `Question`
records (the `Except` result has no partial-prefix channel). -/
theorem parse_all_or_nothing (root : Node) :
    (∃ qs, parseQuestions root = .ok qs) ∨
      (∃ e, parseQuestions root = .error e ∧
        (e = errNoAfterTitle ∨ e = errNoFigure ∨ e = errNoImg ∨
          e = errNoSrc ∨ e = errNoAnswerP)) := by
  cases h : parseQuestions root with
  | ok qs => exact Or.inl ⟨qs, rfl⟩
  | error e => exact Or.inr ⟨e, rfl, parseGo_error_msgs _ _ e h⟩

/-- C5: the img-tag repair is idempotent: applying `fix_img_tags` twice
equals applying it once, for every input string. -/
theorem fix_img_tags_idempotent (s : Str) :
    fixImgTags (fixImgTags s) = fixImgTags s :=
  fixImgTags_idem_aux s.length s (le_refl _)

/-- C6: each `<img` tag body up to (and not including) the first
subsequent `>` is rewritten to end in exactly one `/>` (one trailing
slash of the body, if present, is absorbed rather than doubled), the
match spans arbitrary body characters including line breaks, and text
containing no `<img` occurrence is left character-for-character
unchanged. -/
theorem fix_img_tags_rewrite (pre body post l : Str)
    (hpre : hasImg pre = false) (hbody : '>' ∉ body) (hl : hasImg l = false) :
    fixImgTags (pre ++ '<' :: 'i' :: 'm' :: 'g' :: (body ++ '>' :: post)) =
      pre ++ '<' :: 'i' :: 'm' :: 'g' ::
        (dropTrailSlash body ++ '/' :: '>' :: fixImgTags post) ∧
      fixImgTags l = l :=
  ⟨fixImgTags_decompose pre body post hpre hbody, fixImgTags_id_of_noimg l hl⟩

/-- Witness for C6 at concrete inputs: a tag with a newline in its body
and no closing slash gains exactly one, and `<img`-free text is
unchanged. -/
theorem fix_img_tags_rewrite_witness :
    fixImgTags ("pre ".toList ++ '<' :: 'i' :: 'm' :: 'g' ::
        (" a=1\n b=2".toList ++ '>' :: "post".toList)) =
      "pre ".toList ++ '<' :: 'i' :: 'm' :: 'g' ::
        (dropTrailSlash " a=1\n b=2".toList ++ '/' :: '>' :: fixImgTags "post".toList) ∧
      fixImgTags "no image tags here".toList = "no image tags here".toList :=
  fix_img_tags_rewrite "pre ".toList " a=1\n b=2".toList "post".toList
    "no image tags here".toList (by decide) (by decide) (by decide)

/-- C7: title and answer normalization always produce a string with no
newline, no run of two consecutive spaces, and no leading or trailing
whitespace (the output is a fixed point of trimming); both functions
are total by construction. -/
theorem normalize_whitespace_props (s : Str) :
    ('\n' ∉ normalizeQuestionTitle s ∧
      noTwoSpaces (normalizeQuestionTitle s) = true ∧
      trimStr (normalizeQuestionTitle s) = normalizeQuestionTitle s) ∧
    ('\n' ∉ normalizeAnswerText s ∧
      noTwoSpaces (normalizeAnswerText s) = true ∧
      trimStr (normalizeAnswerText s) = normalizeAnswerText s) :=
  ⟨normalizeString_props _, normalizeString_props _⟩

/-- C8: the title normalizer strips one leading run of digits and dots,
the answer normalizer strips one leading letter-dot pair with no space
required after the dot; the three concrete examples of the spec. -/
theorem normalize_prefix_examples :
    normalizeQuestionTitle "15.1 this\n   is test\n question\n".toList =
        "this is test question".toList ∧
      normalizeAnswerText "D. this\n   is test\n answer\n".toList =
        "this is test answer".toList ∧
      normalizeAnswerText "b.this\n   is test\n answer\n".toList =
        "this is test answer".toList :=
  ⟨rfl, rfl, rfl⟩

/-- C9: the extractor does not enforce exactly one correct answer: a
document whose answer paragraph holds two bold text nodes yields one
question with two `is_answer = true` choices, and one whose answer
paragraph holds only plain text nodes yields a question with zero
`is_answer = true` choices; neither is an error. -/
theorem parse_allows_zero_or_many_marked_answers :
    parseQuestions (Node.element "html".toList [] (nl [
        Node.element "p".toList [("class".toList, questionMarker)]
          (nl [Node.text "1. Q".toList]),
        Node.element "p".toList [] (nl [
          Node.element "strong".toList [] (nl [Node.text "A. x".toList]),
          Node.element "strong".toList [] (nl [Node.text "B. y".toList])])])) =
      .ok [⟨"Q".toList, none,
        [⟨"x".toList, true⟩, ⟨"y".toList, true⟩]⟩] ∧
    parseQuestions (Node.element "html".toList [] (nl [
        Node.element "p".toList [("class".toList, questionMarker)]
          (nl [Node.text "1. Q".toList]),
        Node.element "p".toList [] (nl [
          Node.text "A. x".toList, Node.text "B. y".toList])])) =
      .ok [⟨"Q".toList, none,
        [⟨"x".toList, false⟩, ⟨"y".toList, false⟩]⟩] :=
  ⟨rfl, rfl⟩

/-- C10: `extract_image_name` never returns its error: for every input
it returns `Ok`; an input with no slash maps to itself, and an input
ending in a slash-free suffix maps to that suffix (the piece after the
last `/`). -/
theorem extract_image_name_total (url a b : Str) :
    (∃ n, extractImageName url = .ok n) ∧
      ('/' ∉ url → extractImageName url = .ok url) ∧
      ('/' ∉ b → extractImageName (a ++ '/' :: b) = .ok b) := by
  refine ⟨?_, ?_, ?_⟩
  · unfold extractImageName
    cases hs : splitOnSlash url with
    | nil => exact absurd hs (splitOnSlash_ne_nil url)
    | cons w ws =>
      cases hr : (w :: ws).reverse with
      | nil => exact absurd hr (by simp)
      | cons u us => exact ⟨u, rfl⟩
  · intro h
    unfold extractImageName
    rw [splitOnSlash_noslash url h]
    rfl
  · intro h
    unfold extractImageName
    rw [List.head?_reverse, splitOnSlash_getLast a b h]

/-- Witness for C10 at concrete inputs. -/
theorem extract_image_name_total_witness :
    extractImageName ("https://a.b/c".toList ++ '/' :: "d.jpg".toList) =
        .ok "d.jpg".toList ∧
      extractImageName "noslash".toList = .ok "noslash".toList :=
  ⟨(extract_image_name_total [] "https://a.b/c".toList "d.jpg".toList).2.2 (by decide),
    (extract_image_name_total "noslash".toList [] []).2.1 (by decide)⟩

/-- C1: a document whose top-level children are any non-marker elements,
then a question-marker paragraph with title text immediately followed by
an answer paragraph whose children are a plain text node, a bold text
node, and a plain text node (each normalizing to non-empty text), then
any further non-marker elements, extracts to exactly one question with
no image and three in-order answer choices of which exactly the bold one
is marked. -/
theorem parse_no_image_question (pre post : List Node) (title a b c : Str)
    (hpre : ∀ e ∈ pre, Node.isElement e = true ∧ isQuestionEl e = false)
    (hpost : ∀ e ∈ post, Node.isElement e = true ∧ isQuestionEl e = false)
    (ha : (normalizeAnswerText a).isEmpty = false)
    (hb : (normalizeAnswerText b).isEmpty = false)
    (hc : (normalizeAnswerText c).isEmpty = false) :
    parseQuestions (Node.element "html".toList []
      (nl (pre ++ [Node.element "p".toList [("class".toList, questionMarker)]
          (nl [Node.text title]),
        Node.element "p".toList [] (nl [Node.text a,
          Node.element "strong".toList [] (nl [Node.text b]), Node.text c])] ++ post))) =
      .ok [⟨normalizeQuestionTitle title, none,
        [⟨normalizeAnswerText a, false⟩, ⟨normalizeAnswerText b, true⟩,
         ⟨normalizeAnswerText c, false⟩]⟩] := by
  unfold parseQuestions
  have hchild : (Node.element "html".toList []
      (nl (pre ++ [Node.element "p".toList [("class".toList, questionMarker)]
          (nl [Node.text title]),
        Node.element "p".toList [] (nl [Node.text a,
          Node.element "strong".toList [] (nl [Node.text b]), Node.text c])] ++ post))).childrenEls =
      pre ++ [Node.element "p".toList [("class".toList, questionMarker)]
          (nl [Node.text title]),
        Node.element "p".toList [] (nl [Node.text a,
          Node.element "strong".toList [] (nl [Node.text b]), Node.text c])] ++ post := by
    simp only [Node.childrenEls, Node.nodesL, nl_toList]
    rw [List.filter_eq_self.mpr]
    intro e he
    rcases List.mem_append.mp he with h1 | h2
    · rcases List.mem_append.mp h1 with hp1 | hm1
      · exact (hpre e hp1).1
      · rcases List.mem_cons.mp hm1 with hq | hq
        · subst hq; rfl
        · rcases List.mem_cons.mp hq with hq2 | hq2
          · subst hq2; rfl
          · simp at hq2
    · exact (hpost e h2).1
  rw [hchild, List.append_assoc]
  rw [parseL_skip pre _ (fun e he => (hpre e he).2)]
  rw [show ([Node.element "p".toList [("class".toList, questionMarker)]
          (nl [Node.text title]),
        Node.element "p".toList [] (nl [Node.text a,
          Node.element "strong".toList [] (nl [Node.text b]), Node.text c])] : List Node) ++ post =
      Node.element "p".toList [("class".toList, questionMarker)] (nl [Node.text title]) ::
        Node.element "p".toList [] (nl [Node.text a,
          Node.element "strong".toList [] (nl [Node.text b]), Node.text c]) :: post from rfl]
  rw [parseL_step_noimg
    (Node.element "p".toList [("class".toList, questionMarker)] (nl [Node.text title]))
    (Node.element "p".toList [] (nl [Node.text a,
      Node.element "strong".toList [] (nl [Node.text b]), Node.text c])) post rfl rfl rfl]
  rw [parseL_no_questions post (fun e he => (hpost e he).2)]
  simp only [Except.map, Except.ok.injEq]
  simp only [answerChoicesOf, Node.nodesL, nl_toList, List.filterMap_cons, List.filterMap_nil,
    beq_self_eq_true, if_true, List.filter_cons, List.filter_nil, titleOfNodes, List.map_cons,
    List.map_nil, joinSp, prependSp, NodeList.textsL, nl, NodeList.toList, List.append_nil, ha,
    hb, hc, Bool.not_false, if_true]

/-- Witness for C1 at concrete inputs (empty context, one bold and two
plain choices, all normalizing to non-empty text). -/
theorem parse_no_image_question_witness :
    parseQuestions (Node.element "html".toList []
      (nl ([] ++ [Node.element "p".toList [("class".toList, questionMarker)]
          (nl [Node.text "1. T".toList]),
        Node.element "p".toList [] (nl [Node.text "A. x".toList,
          Node.element "strong".toList [] (nl [Node.text "B. y".toList]),
          Node.text "C. z".toList])] ++ []))) =
      .ok [⟨normalizeQuestionTitle "1. T".toList, none,
        [⟨normalizeAnswerText "A. x".toList, false⟩,
         ⟨normalizeAnswerText "B. y".toList, true⟩,
         ⟨normalizeAnswerText "C. z".toList, false⟩]⟩] :=
  parse_no_image_question [] [] "1. T".toList "A. x".toList "B. y".toList "C. z".toList
    (by simp) (by simp) (by decide) (by decide) (by decide)

/-- C2: a marker paragraph, then an image container holding
`figure > img[src = x]`, then an answer paragraph, yields a question
with `img_src = some x`; scanning resumes after that answer paragraph,
so a following marker and answer paragraph yield a second question. -/
theorem parse_image_question_and_resume (x : Str) :
    parseQuestions (Node.element "html".toList [] (nl [
      Node.element "p".toList [("class".toList, questionMarker)]
        (nl [Node.text "1. First".toList]),
      Node.element "div".toList [("class".toList, imageMarker)] (nl [
        Node.element "figure".toList [] (nl [
          Node.element "img".toList [("src".toList, x)] (nl [])])]),
      Node.element "p".toList [] (nl [Node.text "A. one".toList]),
      Node.element "p".toList [("class".toList, questionMarker)]
        (nl [Node.text "2. Second".toList]),
      Node.element "p".toList [] (nl [Node.text "B. two".toList])])) =
      .ok [⟨"First".toList, some x, [⟨"one".toList, false⟩]⟩,
        ⟨"Second".toList, none, [⟨"two".toList, false⟩]⟩] := rfl

/-- C4: the pre-normalization title is built from the marker's child
nodes, one string per child (element child: its descendant texts joined
by single spaces; text child: its raw content), joined by single
spaces; the second conjunct shows text two element levels deep is
collected (descendant traversal, not only direct text children). -/
theorem title_from_marker_children (ns : List Node) (t1 t2 : Str)
    (a1 a2 : List (Str × Str)) (s : Str) :
    (parseQuestions (Node.element "html".toList [] (nl [
        Node.element "p".toList [("class".toList, questionMarker)] (nl ns),
        Node.element "p".toList [] (nl [Node.text "A. x".toList])])) =
      .ok [⟨normalizeQuestionTitle (titleOfNodes ns), none,
        [⟨"x".toList, false⟩]⟩]) ∧
    titleOfNodes [Node.element t1 a1 (nl [Node.element t2 a2 (nl [Node.text s])])] = s := by
  constructor
  · unfold parseQuestions
    have hchild : (Node.element "html".toList [] (nl [
        Node.element "p".toList [("class".toList, questionMarker)] (nl ns),
        Node.element "p".toList [] (nl [Node.text "A. x".toList])])).childrenEls =
      [Node.element "p".toList [("class".toList, questionMarker)] (nl ns),
       Node.element "p".toList [] (nl [Node.text "A. x".toList])] := rfl
    rw [hchild]
    rw [parseL_step_noimg
      (Node.element "p".toList [("class".toList, questionMarker)] (nl ns))
      (Node.element "p".toList [] (nl [Node.text "A. x".toList])) [] rfl rfl rfl]
    rw [show (Node.element "p".toList [("class".toList, questionMarker)] (nl ns)).nodesL = ns
      from by simp [Node.nodesL, nl_toList]]
    rfl
  · simp [titleOfNodes, joinSp, prependSp, NodeList.textsL, nl]

end ThaiExam
